import Mathlib

/-!
Verification of `grpc_pytools/pythonic.py` (a generator that emits a
Pythonic wrapper class for a gRPC service defined in a `xx_pb2` module).

Strings are modelled as lists of code points (`List Nat`), exactly the
sequences of characters the Python code manipulates.  Every definition
below is transcribed from the corresponding function of the source file.
-/

namespace GrpcPytools

/-- Code points of a Lean string literal, used to write concrete Python
strings in this development. -/
def encode (s : String) : List Nat := s.data.map Char.toNat

/-- ASCII uppercase letter, the character class `[A-Z]` of the regexes. -/
def isUpN (n : Nat) : Prop := 65 ≤ n ∧ n ≤ 90

/-- ASCII lowercase letter, the character class `[a-z]`. -/
def isLowN (n : Nat) : Prop := 97 ≤ n ∧ n ≤ 122

/-- ASCII digit, the character class `\d` (on ASCII input). -/
def isDigitN (n : Nat) : Prop := 48 ≤ n ∧ n ≤ 57

instance (n : Nat) : Decidable (isUpN n) :=
  inferInstanceAs (Decidable (65 ≤ n ∧ n ≤ 90))

instance (n : Nat) : Decidable (isLowN n) :=
  inferInstanceAs (Decidable (97 ≤ n ∧ n ≤ 122))

instance (n : Nat) : Decidable (isDigitN n) :=
  inferInstanceAs (Decidable (48 ≤ n ∧ n ≤ 57))

/-- The character class `[a-z\d]` of the second regex in `underscore`. -/
def isLowOrDigitN (n : Nat) : Prop := isLowN n ∨ isDigitN n

instance (n : Nat) : Decidable (isLowOrDigitN n) :=
  inferInstanceAs (Decidable (isLowN n ∨ isDigitN n))

/-- `str.lower` on one ASCII character. -/
def toLowN (n : Nat) : Nat := if isUpN n then n + 32 else n

/-- `str.upper` on one ASCII character (used by `camelize`). -/
def toUpN (n : Nat) : Nat := if isLowN n then n - 32 else n

/-- `word.lower()` — the final step of `Generator.underscore`. -/
def pyLower (l : List Nat) : List Nat := l.map toLowN

/-- `word.replace("-", "_")` — the third step of `Generator.underscore`
(code point 45 is `-`, 95 is `_`). -/
def replaceHyphen (l : List Nat) : List Nat :=
  l.map (fun c => if c = 45 then 95 else c)

/-- Scanner for `re.sub(r"([A-Z]+)([A-Z][a-z])", r'\1_\2', word)`.
`pending` is the reversed run of uppercase letters read so far.  When the
run (of length at least 2, greedy `[A-Z]+` plus one `[A-Z]`) is followed
by a lowercase letter, an underscore is inserted before the run's last
uppercase letter and scanning resumes after the match; otherwise the run
is copied unchanged. -/
def sub1go : List Nat → List Nat → List Nat
  | pending, [] => pending.reverse
  | pending, c :: cs =>
    if isUpN c then sub1go (c :: pending) cs
    else if isLowN c ∧ 2 ≤ pending.length then
      pending.reverse.dropLast ++ 95 :: pending.headD 0 :: c :: sub1go [] cs
    else pending.reverse ++ c :: sub1go [] cs

/-- First substitution of `Generator.underscore`:
`re.sub(r"([A-Z]+)([A-Z][a-z])", r'\1_\2', word)`. -/
def sub1 (l : List Nat) : List Nat := sub1go [] l

/-- Second substitution of `Generator.underscore`:
`re.sub(r"([a-z\d])([A-Z])", r'\1_\2', word)` (left-to-right,
non-overlapping: scanning resumes after each two-character match). -/
def sub2 : List Nat → List Nat
  | [] => []
  | [c] => [c]
  | c1 :: c2 :: rest =>
    if isLowOrDigitN c1 ∧ isUpN c2 then c1 :: 95 :: c2 :: sub2 rest
    else c1 :: sub2 (c2 :: rest)

/-- `Generator.underscore` (pythonic.py lines 66-76): the two regex
substitutions, then hyphen normalisation, then lowercasing. -/
def underscore (word : List Nat) : List Nat :=
  pyLower (replaceHyphen (sub2 (sub1 word)))

/-- Scanner for the tail of `re.sub(r"(?:^|_)(.)", upper, string)`: an
underscore followed by a character is replaced by that character
uppercased; everything else is copied (a trailing underscore has no
following character and stays). -/
def camAux : List Nat → List Nat
  | [] => []
  | [c] => [c]
  | c :: d :: rest =>
    if c = 95 then toUpN d :: camAux rest
    else c :: camAux (d :: rest)

/-- `Generator.camelize` with `uppercase_first_letter=True` (the form the
generator uses): `re.sub(r"(?:^|_)(.)", lambda m: m.group(1).upper(), string)` —
the first character is matched via `^` and uppercased, then the scan of
`camAux` handles the rest. -/
def camelize : List Nat → List Nat
  | [] => []
  | c :: rest => toUpN c :: camAux rest

/-- `Generator.slice_every` (pythonic.py lines 42-53): repeatedly take at
most `n` items (`itertools.islice`); stop when the slice is empty; pad a
short slice up to `n` with `padding_item` when `padding` is set. -/
def slice_every {α : Type} (l : List α) (n : Nat) (padding : Bool)
    (padding_item : α) : List (List α) :=
  if _h : (l.take n).isEmpty then []
  else
    (if padding ∧ n - (l.take n).length ≠ 0 then
       l.take n ++ List.replicate (n - (l.take n).length) padding_item
     else l.take n) :: slice_every (l.drop n) n padding padding_item
termination_by l.length
decreasing_by
  simp only [List.length_drop]
  rcases l with _ | ⟨a, l⟩
  · simp at _h
  · cases n with
    | zero => simp at _h
    | succ m => simp; omega

/-- Python string comparison (used by `stub_method_names.sort()`):
lexicographic on code points, a proper initial segment comparing smaller. -/
def lexLeB : List Nat → List Nat → Bool
  | [], _ => true
  | _ :: _, [] => false
  | a :: as, b :: bs => if a < b then true else if b < a then false else lexLeB as bs

/-- One value of an enum descriptor: its declared name and number. -/
structure EnumValueDesc where
  name : List Nat
  number : Int
deriving DecidableEq

/-- An enum descriptor of the pool: short name and declared values. -/
structure EnumDesc where
  name : List Nat
  values : List EnumValueDesc
deriving DecidableEq

/-- A message descriptor of the pool (only its short name is emitted). -/
structure MsgDesc where
  name : List Nat
deriving DecidableEq

/-- One RPC-callable attribute of the stub: its attribute name, the name
of its request class, and the request class's declared field names in
order (`req_class.DESCRIPTOR.fields`). -/
structure RpcMethod where
  name : List Nat
  reqName : List Nat
  reqFields : List (List Nat)
deriving DecidableEq

/-- The generated stub class, seen through the introspection the code
performs: the attributes of a throwaway instance. -/
structure StubClass where
  methods : List RpcMethod
deriving DecidableEq

/-- The loaded `xx_pb2` module: the descriptor pool's fully-qualified-name
keyed enum and message descriptors (in iteration order), and the module's
stub classes, keyed by class name for the `getattr` lookup. -/
structure PB2Module where
  enumPool : List (List Nat × EnumDesc)
  msgPool : List (List Nat × MsgDesc)
  stubClasses : List (List Nat × StubClass)

/-- The `Generator`'s state after `__init__` (pythonic.py lines 23-40). -/
structure Gen where
  pb2_path : List Nat
  pb2_name : List Nat
  proto_package_name : List Nat
  service_name : List Nat
  stub_class_name : List Nat
  core_method_name : List Nat
  unfold_method_args : Bool
  rpc_method_args_size : Nat

/-- `self.pb2_module_name.rsplit('.', 1)` guarded by `'.' in ...`
(pythonic.py lines 30-33); code point 46 is `.`. -/
def rsplitDot (l : List Nat) : List Nat × List Nat :=
  if 46 ∈ l then
    (((l.reverse.dropWhile (fun c => c ≠ 46)).tail).reverse,
     (l.reverse.takeWhile (fun c => c ≠ 46)).reverse)
  else ([], l)

/-- `self.pb2_name[:-len('_pb2')]` (pythonic.py line 35): unconditionally
drop the last four characters; Python's negative-slice never fails and
yields `''` when the name has four or fewer characters. -/
def derive_package (name : List Nat) : List Nat :=
  name.take (name.length - (encode "_pb2").length)

/-- `Generator.__init__` (pythonic.py lines 23-40): split the module
name, derive the package name, default the service name to the camelized
package name (Python `or`, so an empty given name also falls back), and
form the stub class name. -/
def mkGenerator (pb2_module_name : List Nat) (service_name : Option (List Nat))
    (core_method_name : List Nat) (unfold_method_args : Bool)
    (rpc_method_args_size : Nat) : Gen :=
  let pp := rsplitDot pb2_module_name
  let pkg := derive_package pp.2
  let svc := match service_name with
    | some s => if s = [] then camelize pkg else s
    | none => camelize pkg
  { pb2_path := pp.1
    pb2_name := pp.2
    proto_package_name := pkg
    service_name := svc
    stub_class_name := svc ++ encode "Stub"
    core_method_name := core_method_name
    unfold_method_args := unfold_method_args
    rpc_method_args_size := rpc_method_args_size }

/-- `Generator.has_enum_types` (pythonic.py lines 78-80). -/
def has_enum_types (g : Gen) (m : PB2Module) : Bool :=
  m.enumPool.any (fun p => g.proto_package_name.isPrefixOf p.1)

/-- `Generator.write_module_header` (pythonic.py lines 82-98). -/
def write_module_header (g : Gen) (m : PB2Module) : List Nat :=
  let import_pb2 :=
    if g.pb2_path ≠ [] then
      encode "from " ++ g.pb2_path ++ encode " import " ++ g.pb2_name
    else encode "import " ++ g.pb2_name
  encode "# -*- coding: utf-8 -*-\n" ++
    (if has_enum_types g m then encode "\nimport enum" else []) ++
    encode "\nimport grpc" ++ encode "\n\n" ++ import_pb2

/-- The enum descriptors whose fully-qualified name starts with the
package name — the `if name.startswith(self.proto_package_name)` filter
of `Generator.write_enum_types` (pythonic.py lines 100-111). -/
def includedEnums (g : Gen) (m : PB2Module) : List (List Nat × EnumDesc) :=
  m.enumPool.filter (fun p => g.proto_package_name.isPrefixOf p.1)

/-- The rendering of one enum class in `Generator.write_enum_types`. -/
def renderEnumClass (e : EnumDesc) : List Nat :=
  encode "\n\n\nclass " ++ e.name ++ encode "(enum.Enum):\n" ++
    List.intercalate (encode "\n")
      (e.values.map (fun v => encode "    " ++ v.name ++ encode " = " ++
        encode (toString v.number)))

/-- `Generator.write_enum_types` (pythonic.py lines 100-111). -/
def write_enum_types (g : Gen) (m : PB2Module) : List Nat :=
  ((includedEnums g m).map (fun p => renderEnumClass p.2)).flatten

/-- The message descriptors whose fully-qualified name starts with the
package name — the filter of `Generator.write_message_types`
(pythonic.py lines 113-122). -/
def includedMsgs (g : Gen) (m : PB2Module) : List (List Nat × MsgDesc) :=
  m.msgPool.filter (fun p => g.proto_package_name.isPrefixOf p.1)

/-- `Generator.write_message_types` (pythonic.py lines 113-122). -/
def write_message_types (g : Gen) (m : PB2Module) : List Nat :=
  encode "\n\n" ++
    ((includedMsgs g m).map (fun p =>
      encode "\n" ++ p.2.name ++ encode " = " ++ g.pb2_name ++ encode "." ++
        p.2.name)).flatten

/-- `Generator.write_class_header` (pythonic.py lines 124-127). -/
def write_class_header (g : Gen) : List Nat :=
  encode "\n\n\nclass " ++ g.service_name ++ encode "Service(object):\n"

/-- `Generator.write_class_constructor` (pythonic.py lines 129-134). -/
def write_class_constructor : List Nat :=
  encode "\n    def __init__(self, target, timeout=10):\n        self.target = target\n        self.timeout = timeout\n"

/-- `Generator.write_stub_property` (pythonic.py lines 136-145). -/
def write_stub_property (g : Gen) : List Nat :=
  encode "\n    @property\n    def stub(self):\n        channel = grpc.insecure_channel(self.target)\n        return " ++
    g.pb2_name ++ encode "." ++ g.stub_class_name ++ encode "(channel)\n"

/-- `Generator.write_core_method` (pythonic.py lines 147-156). -/
def write_core_method (g : Gen) : List Nat :=
  encode "\n    def " ++ g.core_method_name ++
    encode "(self, rpc_name, req):\n        rpc = getattr(self.stub, rpc_name)\n        resp = rpc(req, self.timeout)\n        return resp\n"

/-- `Generator.write_folded_rpc_method` (pythonic.py lines 158-168). -/
def write_folded_rpc_method (core_method_name method_name req_name : List Nat) :
    List Nat :=
  encode "\n    def " ++ underscore method_name ++ encode "(self, " ++
    underscore req_name ++ encode "):\n        resp = self." ++
    core_method_name ++ encode "('" ++ method_name ++ encode "', " ++
    underscore req_name ++ encode ")\n        return resp\n"

/-- `Generator.write_unfolded_rpc_method` (pythonic.py lines 170-205):
`req_param_names` arrives already underscore-cased (see
`write_rpc_methods`).  `args_size` is `self.rpc_method_args_size or
len(full_params)`, so a configured size of zero falls back to the whole
parameter count. -/
def write_unfolded_rpc_method (core_method_name : List Nat)
    (rpc_method_args_size : Nat) (method_name req_name : List Nat)
    (req_param_names : List (List Nat)) : List Nat :=
  let indented_header := encode "    def " ++ underscore method_name ++ encode "("
  let full_params := encode "self" :: req_param_names
  let args_size :=
    if rpc_method_args_size = 0 then full_params.length else rpc_method_args_size
  let separator := encode ",\n" ++ List.replicate indented_header.length 32
  let indented_params :=
    List.intercalate separator
      ((slice_every full_params args_size false []).map
        (fun params => List.intercalate (encode ", ") params))
  let indented_kwargs :=
    List.intercalate (encode ",\n")
      (req_param_names.map (fun p => encode "            " ++ p ++ encode "=" ++ p))
  let indented_body :=
    encode "        req = " ++ req_name ++ encode "(\n" ++ indented_kwargs ++
      encode "\n        )\n        resp = self." ++ core_method_name ++
      encode "('" ++ method_name ++ encode "', req)\n        return resp\n"
  encode "\n" ++ indented_header ++ indented_params ++ encode "):\n" ++
    indented_body

/-- The RPC methods in emission order (pythonic.py lines 210-221): the
stub instance's attributes whose names do not start with `__`, sorted
lexicographically by attribute name (`stub_method_names.sort()`). -/
def sortedRpcMethods (st : StubClass) : List RpcMethod :=
  List.insertionSort (fun a b => lexLeB a.name b.name = true)
    (st.methods.filter (fun m0 => !(encode "__").isPrefixOf m0.name))

/-- The body of the emission loop of `Generator.write_rpc_methods`
(pythonic.py lines 223-234). -/
def emitRpcMethod (g : Gen) (m0 : RpcMethod) : List Nat :=
  if g.unfold_method_args then
    write_unfolded_rpc_method g.core_method_name g.rpc_method_args_size
      m0.name m0.reqName (m0.reqFields.map underscore)
  else write_folded_rpc_method g.core_method_name m0.name m0.reqName

/-- `Generator.write_rpc_methods` after the stub lookup succeeded. -/
def write_rpc_methods (g : Gen) (st : StubClass) : List Nat :=
  ((sortedRpcMethods st).map (emitRpcMethod g)).flatten

/-- The fatal error of `Generator.write_rpc_methods`:
`getattr(self.pb2_module, self.stub_class_name)` raises `AttributeError`
when the module has no class of that name. -/
inductive GenError where
  | missingStub
deriving DecidableEq

/-- The `getattr(self.pb2_module, self.stub_class_name)` lookup. -/
def lookupStub (m : PB2Module) (className : List Nat) : Option StubClass :=
  (m.stubClasses.find? (fun p => p.1 == className)).map Prod.snd

/-- `Generator.generate` (pythonic.py lines 236-244): every fragment is
written to `sys.stdout` in order; the stub lookup happens only inside
`write_rpc_methods`, after all earlier fragments have been written.  The
result is the text written so far, paired with the error that aborted the
run, if any. -/
def generate (g : Gen) (m : PB2Module) : List Nat × Option GenError :=
  let pre := write_module_header g m ++ write_enum_types g m ++
    write_message_types g m ++ write_class_header g ++
    write_class_constructor ++ write_stub_property g ++ write_core_method g
  match lookupStub m g.stub_class_name with
  | none => (pre, some GenError.missingStub)
  | some st => (pre ++ write_rpc_methods g st, none)

/-- A character of an ASCII identifier: letter, digit or underscore. -/
def isIdCharN (n : Nat) : Prop :=
  isUpN n ∨ isLowN n ∨ isDigitN n ∨ n = 95

instance (n : Nat) : Decidable (isIdCharN n) :=
  inferInstanceAs (Decidable (isUpN n ∨ isLowN n ∨ isDigitN n ∨ n = 95))

/-- The word contains two adjacent uppercase letters somewhere. -/
def hasAdjUp : List Nat → Prop
  | a :: b :: rest => (isUpN a ∧ isUpN b) ∨ hasAdjUp (b :: rest)
  | _ => False

instance instDecHasAdjUp : (l : List Nat) → Decidable (hasAdjUp l)
  | [] => isFalse (fun h => h)
  | [_] => isFalse (fun h => h)
  | _ :: b :: rest =>
    @instDecidableOr _ _ (inferInstance) (instDecHasAdjUp (b :: rest))

/-- An ASCII letter or digit. -/
def isAlnumN (n : Nat) : Prop := isUpN n ∨ isLowN n ∨ isDigitN n

instance (n : Nat) : Decidable (isAlnumN n) :=
  inferInstanceAs (Decidable (isUpN n ∨ isLowN n ∨ isDigitN n))

/-- The enum `foo.Color` of the spec's example schema. -/
def colorEnum : EnumDesc :=
  ⟨encode "Color", [⟨encode "RED", 0⟩, ⟨encode "GREEN", 1⟩]⟩

/-- The unrelated enum `bar.Shade` of the spec's example schema. -/
def shadeEnum : EnumDesc := ⟨encode "Shade", [⟨encode "DARK", 0⟩]⟩

/-- A pool holding `foo.Color` and `bar.Shade` (and no messages, no
stubs), for the `foo` / `bar` example. -/
def fooBarModule : PB2Module :=
  ⟨[(encode "foo.Color", colorEnum), (encode "bar.Shade", shadeEnum)], [], []⟩

/-- The generator configured for `foo_pb2`, whose derived package is
`foo`. -/
def fooGen : Gen := mkGenerator (encode "foo_pb2") none (encode "call_rpc") false 0

theorem toLowN_not_up (n : Nat) : ¬ isUpN (toLowN n) := by
  unfold toLowN
  by_cases h : isUpN n
  · simp only [h, if_true]
    unfold isUpN at h ⊢
    omega
  · simp [h]

theorem toLowN_eq45 {n : Nat} (h : toLowN n = 45) : n = 45 := by
  unfold toLowN at h
  by_cases hu : isUpN n
  · simp only [hu, if_true] at h
    unfold isUpN at hu
    omega
  · simpa [hu] using h

theorem pyLower_no_up (l : List Nat) : ∀ c ∈ pyLower l, ¬ isUpN c := by
  intro c hc
  unfold pyLower at hc
  rcases List.mem_map.mp hc with ⟨d, _, rfl⟩
  exact toLowN_not_up d

theorem pyLower_no45 (l : List Nat) (h : ∀ c ∈ l, c ≠ 45) :
    ∀ c ∈ pyLower l, c ≠ 45 := by
  intro c hc
  unfold pyLower at hc
  rcases List.mem_map.mp hc with ⟨d, hd, rfl⟩
  intro h45
  exact h d hd (toLowN_eq45 h45)

theorem replaceHyphen_no45 (l : List Nat) : ∀ c ∈ replaceHyphen l, c ≠ 45 := by
  intro c hc
  unfold replaceHyphen at hc
  rcases List.mem_map.mp hc with ⟨d, _, rfl⟩
  by_cases h : d = 45 <;> simp [h]

theorem underscore_no45 (l : List Nat) : ∀ c ∈ underscore l, c ≠ 45 :=
  pyLower_no45 _ (replaceHyphen_no45 _)

theorem underscore_no_up (l : List Nat) : ∀ c ∈ underscore l, ¬ isUpN c :=
  pyLower_no_up _

theorem sub1go_nil_of_no_up (l : List Nat) (h : ∀ c ∈ l, ¬ isUpN c) :
    sub1go [] l = l := by
  induction l with
  | nil => rfl
  | cons c cs ih =>
    have hc : ¬ isUpN c := h c (List.mem_cons_self c cs)
    rw [sub1go]
    simp only [hc, if_false, List.length_nil]
    have : ¬ (isLowN c ∧ 2 ≤ (0 : Nat)) := by omega
    simp only [this, if_false, List.reverse_nil, List.nil_append]
    rw [ih (fun d hd => h d (List.mem_cons_of_mem c hd))]

theorem sub2_eq_self_of_no_up (l : List Nat) (h : ∀ c ∈ l, ¬ isUpN c) :
    sub2 l = l := by
  induction l using sub2.induct with
  | case1 => rfl
  | case2 c => rfl
  | case3 c1 c2 rest hm ih =>
    exact absurd hm.2 (h c2 (by simp))
  | case4 c1 c2 rest hm ih =>
    rw [sub2]
    simp only [hm, if_false]
    rw [ih (fun d hd => h d (List.mem_cons_of_mem c1 hd))]

theorem replaceHyphen_eq_self (l : List Nat) (h : ∀ c ∈ l, c ≠ 45) :
    replaceHyphen l = l := by
  unfold replaceHyphen
  have : l.map (fun c => if c = 45 then 95 else c) = l.map id :=
    List.map_congr_left (fun c hc => by simp [h c hc])
  rw [this, List.map_id]

theorem pyLower_eq_self (l : List Nat) (h : ∀ c ∈ l, ¬ isUpN c) :
    pyLower l = l := by
  unfold pyLower
  have : l.map toLowN = l.map id :=
    List.map_congr_left (fun c hc => by unfold toLowN; simp [h c hc])
  rw [this, List.map_id]

theorem isAlnumN_of_idChar {n : Nat} (h : isIdCharN n) (h95 : n ≠ 95) :
    isAlnumN n := by
  rcases h with h | h | h | h
  · exact Or.inl h
  · exact Or.inr (Or.inl h)
  · exact Or.inr (Or.inr h)
  · exact absurd h h95

theorem isAlnumN_ne45 {n : Nat} (h : isAlnumN n) : n ≠ 45 := by
  unfold isAlnumN isUpN isLowN isDigitN at h
  omega

theorem isAlnumN_ne95 {n : Nat} (h : isAlnumN n) : n ≠ 95 := by
  unfold isAlnumN isUpN isLowN isDigitN at h
  omega

theorem lowOrDigit_not_up {n : Nat} (h : isLowOrDigitN n) : ¬ isUpN n := by
  unfold isLowOrDigitN isLowN isDigitN at h
  unfold isUpN
  omega

theorem toLowN_eq_self {n : Nat} (h : ¬ isUpN n) : toLowN n = n := by
  unfold toLowN
  simp [h]

theorem toUpN_eq_self {n : Nat} (h : ¬ isLowN n) : toUpN n = n := by
  unfold toUpN
  simp [h]

theorem toUpN_toLowN_of_up {n : Nat} (h : isUpN n) : toUpN (toLowN n) = n := by
  have h1 : toLowN n = n + 32 := by unfold toLowN; simp [h]
  have h2 : isLowN (n + 32) := by unfold isUpN at h; unfold isLowN; omega
  have h3 : toUpN (n + 32) = n + 32 - 32 := by unfold toUpN; simp [h2]
  rw [h1, h3]
  unfold isUpN at h
  omega

theorem toUpN_idem (n : Nat) : toUpN (toUpN n) = toUpN n := by
  by_cases h : isLowN n
  · have h1 : toUpN n = n - 32 := by unfold toUpN; simp [h]
    have h2 : ¬ isLowN (n - 32) := by unfold isLowN at *; omega
    rw [h1, toUpN_eq_self h2]
  · rw [toUpN_eq_self h]
    exact toUpN_eq_self h

theorem toUpN_idChar {n : Nat} (h : isIdCharN n) : isIdCharN (toUpN n) := by
  unfold toUpN
  by_cases hl : isLowN n
  · simp only [hl, if_true]
    unfold isLowN at hl
    exact Or.inl (by unfold isUpN; omega)
  · simpa [hl] using h

theorem hasAdjUp_cons (a : Nat) (l : List Nat) (h : hasAdjUp l) :
    hasAdjUp (a :: l) := by
  cases l with
  | nil => exact h.elim
  | cons b rest => exact Or.inr h

theorem not_hasAdjUp_tail {a : Nat} {l : List Nat} (h : ¬ hasAdjUp (a :: l)) :
    ¬ hasAdjUp l := fun hl => h (hasAdjUp_cons a l hl)

theorem sub1go_of_not_adj (l : List Nat) :
    (¬ hasAdjUp l → sub1go [] l = l) ∧
    (∀ c, isUpN c → ¬ hasAdjUp (c :: l) → sub1go [c] l = c :: l) := by
  induction l with
  | nil =>
    constructor
    · intro _; rfl
    · intro c _ _; rfl
  | cons d ys ih =>
    constructor
    · intro hna
      rw [sub1go]
      by_cases hd : isUpN d
      · simp only [hd, if_true]
        exact ih.2 d hd hna
      · have h2 : ¬ (isLowN d ∧ 2 ≤ ([] : List Nat).length) := by
          simp
        simp only [hd, if_false, h2, List.reverse_nil, List.nil_append]
        rw [ih.1 (not_hasAdjUp_tail hna)]
    · intro c hc hna
      rw [sub1go]
      by_cases hd : isUpN d
      · exact absurd (Or.inl ⟨hc, hd⟩) hna
      · have h2 : ¬ (isLowN d ∧ 2 ≤ ([c] : List Nat).length) := by
          simp only [List.length_cons, List.length_nil]
          omega
        simp only [hd, if_false, h2, List.reverse_cons, List.reverse_nil,
          List.nil_append, List.cons_append, List.singleton_append]
        rw [ih.1 (not_hasAdjUp_tail (not_hasAdjUp_tail hna))]

theorem sub1_of_not_adj {l : List Nat} (h : ¬ hasAdjUp l) : sub1 l = l := by
  rw [sub1]
  exact (sub1go_of_not_adj l).1 h

theorem mem_sub2 (l : List Nat) : ∀ c ∈ sub2 l, c ∈ l ∨ c = 95 := by
  induction l using sub2.induct with
  | case1 => simp [sub2]
  | case2 d => simp [sub2]
  | case3 c1 c2 rest hm ih =>
    intro c hc
    rw [sub2, if_pos hm] at hc
    simp only [List.mem_cons] at hc ⊢
    rcases hc with h | h | h | h
    · tauto
    · tauto
    · tauto
    · rcases ih c h with h2 | h2 <;> tauto
  | case4 c1 c2 rest hm ih =>
    intro c hc
    rw [sub2, if_neg hm] at hc
    simp only [List.mem_cons] at hc ⊢
    rcases hc with h | h
    · tauto
    · rcases ih c h with h2 | h2
      · simp only [List.mem_cons] at h2
        tauto
      · tauto

theorem camAux_cons_ne {c : Nat} (t : List Nat) (h : c ≠ 95) :
    camAux (c :: t) = c :: camAux t := by
  cases t with
  | nil => rfl
  | cons d rest =>
    rw [camAux]
    simp [h]

theorem camAux_all {P : Nat → Prop} (hP : ∀ n, P n → P (toUpN n)) :
    ∀ l : List Nat, (∀ c ∈ l, P c) → ∀ c ∈ camAux l, P c := by
  intro l
  induction l using camAux.induct with
  | case1 => intro _ c hc; exact absurd hc (by simp [camAux])
  | case2 d =>
    intro h c hc
    rw [camAux] at hc
    simp only [List.mem_singleton] at hc
    exact hc ▸ h d (by simp)
  | case3 d rest ih =>
    intro h c hc
    rw [camAux, if_pos rfl] at hc
    simp only [List.mem_cons] at hc
    rcases hc with rfl | hc
    · exact hP d (h d (by simp))
    · exact ih (fun e he => h e (List.mem_cons_of_mem 95 (List.mem_cons_of_mem d he))) c hc
  | case4 c1 d rest h95 ih =>
    intro h c hc
    rw [camAux, if_neg h95] at hc
    simp only [List.mem_cons] at hc
    rcases hc with rfl | hc
    · exact h c (by simp)
    · exact ih (fun e he => h e (List.mem_cons_of_mem c1 he)) c hc

theorem camelize_all {P : Nat → Prop} (hP : ∀ n, P n → P (toUpN n))
    (l : List Nat) (h : ∀ c ∈ l, P c) : ∀ c ∈ camelize l, P c := by
  cases l with
  | nil => intro c hc; exact absurd hc (by simp [camelize])
  | cons d rest =>
    intro c hc
    rw [camelize] at hc
    simp only [List.mem_cons] at hc
    rcases hc with rfl | hc
    · exact hP d (h d (by simp))
    · exact camAux_all hP rest (fun e he => h e (List.mem_cons_of_mem d he)) c hc

theorem camAux_pyLower_sub2 (y : List Nat) :
    (∀ c ∈ y, isAlnumN c) → ¬ hasAdjUp y → (y = [] ∨ ¬ isUpN (y.headD 0)) →
    camAux (pyLower (sub2 y)) = y := by
  induction y using sub2.induct with
  | case1 => intro _ _ _; rfl
  | case2 c =>
    intro hal _ hh
    have hc : ¬ isUpN c := by
      rcases hh with h | h
      · exact absurd h (by simp)
      · simpa using h
    rw [sub2]
    unfold pyLower
    rw [List.map_singleton, toLowN_eq_self hc]
    rfl
  | case3 c1 c2 rest hm ih =>
    intro hal hadj hh
    rw [sub2, if_pos hm]
    unfold pyLower at ih ⊢
    simp only [List.map_cons]
    have hc1 : ¬ isUpN c1 := lowOrDigit_not_up hm.1
    have h95lo : toLowN 95 = 95 := by decide
    rw [toLowN_eq_self hc1, h95lo]
    have hne : c1 ≠ 95 := by
      rcases hm.1 with h | h
      · unfold isLowN at h; omega
      · unfold isDigitN at h; omega
    rw [camAux_cons_ne _ hne, camAux, if_pos rfl, toUpN_toLowN_of_up hm.2]
    have hrest : camAux (List.map toLowN (sub2 rest)) = rest := by
      apply ih
      · intro e he
        exact hal e (List.mem_cons_of_mem c1 (List.mem_cons_of_mem c2 he))
      · exact not_hasAdjUp_tail (not_hasAdjUp_tail hadj)
      · cases rest with
        | nil => exact Or.inl rfl
        | cons d ds =>
          refine Or.inr ?_
          intro hd
          exact (not_hasAdjUp_tail hadj) (Or.inl ⟨hm.2, hd⟩)
    rw [hrest]
  | case4 c1 c2 rest hm ih =>
    intro hal hadj hh
    have hc1 : ¬ isUpN c1 := by
      rcases hh with h | h
      · exact absurd h (by simp)
      · simpa using h
    have hc2 : ¬ isUpN c2 := by
      intro hu2
      apply hm
      refine ⟨?_, hu2⟩
      rcases hal c1 (by simp) with h | h | h
      · exact absurd h hc1
      · exact Or.inl h
      · exact Or.inr h
    rw [sub2, if_neg hm]
    unfold pyLower at ih ⊢
    simp only [List.map_cons]
    rw [toLowN_eq_self hc1]
    have hne : c1 ≠ 95 := isAlnumN_ne95 (hal c1 (by simp))
    rw [camAux_cons_ne _ hne]
    have hrest : camAux (List.map toLowN (sub2 (c2 :: rest))) = c2 :: rest := by
      apply ih
      · intro e he
        exact hal e (List.mem_cons_of_mem c1 he)
      · exact not_hasAdjUp_tail hadj
      · exact Or.inr (by simpa using hc2)
    rw [hrest]

theorem camelize_pyLower_sub2 (y : List Nat) (hal : ∀ c ∈ y, isAlnumN c)
    (hadj : ¬ hasAdjUp y) (hh : toUpN (y.headD 0) = y.headD 0) :
    camelize (pyLower (sub2 y)) = y := by
  have upFix : ∀ c : Nat, toUpN c = c → toUpN (toLowN c) = c := by
    intro c hfix
    by_cases hu : isUpN c
    · exact toUpN_toLowN_of_up hu
    · rw [toLowN_eq_self hu, hfix]
  cases y with
  | nil => rfl
  | cons c1 t =>
    simp only [List.headD_cons] at hh
    cases t with
    | nil =>
      rw [show sub2 [c1] = [c1] from rfl]
      unfold pyLower
      rw [List.map_singleton, camelize, camAux, upFix c1 hh]
    | cons c2 rest =>
      by_cases hm : isLowOrDigitN c1 ∧ isUpN c2
      · rw [sub2, if_pos hm]
        unfold pyLower
        simp only [List.map_cons]
        have h95lo : toLowN 95 = 95 := by decide
        rw [h95lo, camelize, camAux, if_pos rfl, toUpN_toLowN_of_up hm.2,
          upFix c1 hh]
        have hrest : camAux (List.map toLowN (sub2 rest)) = rest := by
          apply camAux_pyLower_sub2
          · intro e he
            exact hal e (List.mem_cons_of_mem c1 (List.mem_cons_of_mem c2 he))
          · exact not_hasAdjUp_tail (not_hasAdjUp_tail hadj)
          · cases rest with
            | nil => exact Or.inl rfl
            | cons d ds =>
              refine Or.inr ?_
              intro hd
              exact (not_hasAdjUp_tail hadj) (Or.inl ⟨hm.2, hd⟩)
        rw [hrest]
      · have hc2 : ¬ isUpN c2 := by
          intro hu2
          by_cases hu1 : isUpN c1
          · exact hadj (Or.inl ⟨hu1, hu2⟩)
          · apply hm
            refine ⟨?_, hu2⟩
            rcases hal c1 (by simp) with h | h | h
            · exact absurd h hu1
            · exact Or.inl h
            · exact Or.inr h
        rw [sub2, if_neg hm]
        unfold pyLower
        simp only [List.map_cons]
        rw [camelize, upFix c1 hh]
        have hrest : camAux (List.map toLowN (sub2 (c2 :: rest))) = c2 :: rest := by
          apply camAux_pyLower_sub2
          · intro e he
            exact hal e (List.mem_cons_of_mem c1 he)
          · exact not_hasAdjUp_tail hadj
          · exact Or.inr (by simpa using hc2)
        rw [hrest]

/-- C7: the underscore naming transform is idempotent: for every ASCII
identifier `x` (letters, digits, underscores), applying `underscore`
twice yields the same result as applying it once. -/
theorem underscore_idem (x : List Nat) (_hx : ∀ c ∈ x, isIdCharN c) :
    underscore (underscore x) = underscore x := by
  have hnup := underscore_no_up x
  have h45 := underscore_no45 x
  conv_lhs => rw [underscore]
  rw [sub1, sub1go_nil_of_no_up _ hnup, sub2_eq_self_of_no_up _ hnup,
    replaceHyphen_eq_self _ h45, pyLower_eq_self _ hnup]

/-- C7 witness: idempotence evaluated at the identifier `GetHTTPUserId2`. -/
theorem underscore_idem_witness :
    underscore (underscore (encode "GetHTTPUserId2")) =
      underscore (encode "GetHTTPUserId2") :=
  underscore_idem (encode "GetHTTPUserId2") (by decide)

/-- C8 counterexample: for the ASCII identifier `HTTPServer`,
`camelize (underscore (camelize x))` is `HttpServer`, not
`camelize x = HTTPServer`, so the round-trip claim fails as stated. -/
theorem camelize_underscore_camelize_cex :
    camelize (underscore (camelize (encode "HTTPServer"))) ≠
      camelize (encode "HTTPServer") := by decide

/-- C8 (amended): `camelize` and `underscore` round-trip on every ASCII
identifier whose camel form contains no underscore and no two adjacent
uppercase letters: `camelize (underscore (camelize x)) = camelize x`. -/
theorem camelize_underscore_camelize (x : List Nat)
    (hx : ∀ c ∈ x, isIdCharN c)
    (h95 : ∀ c ∈ camelize x, c ≠ 95)
    (hadj : ¬ hasAdjUp (camelize x)) :
    camelize (underscore (camelize x)) = camelize x := by
  have hid : ∀ c ∈ camelize x, isIdCharN c :=
    camelize_all (fun _ h => toUpN_idChar h) x hx
  have hal : ∀ c ∈ camelize x, isAlnumN c :=
    fun c hc => isAlnumN_of_idChar (hid c hc) (h95 c hc)
  have h45 : ∀ c ∈ camelize x, c ≠ 45 := fun c hc => isAlnumN_ne45 (hal c hc)
  have hs1 : sub1 (camelize x) = camelize x := sub1_of_not_adj hadj
  have hs2no45 : ∀ c ∈ sub2 (camelize x), c ≠ 45 := by
    intro c hc
    rcases mem_sub2 _ c hc with h | h
    · exact h45 c h
    · omega
  have hu : underscore (camelize x) = pyLower (sub2 (camelize x)) := by
    rw [underscore, hs1, replaceHyphen_eq_self _ hs2no45]
  rw [hu]
  apply camelize_pyLower_sub2 _ hal hadj
  cases x with
  | nil => decide
  | cons c rest =>
    rw [camelize]
    simp only [List.headD_cons]
    exact toUpN_idem c

/-- C8 witness: the amended round-trip evaluated at the identifier
`get_user`, whose camel form `GetUser` has no underscore and no adjacent
uppercase letters. -/
theorem camelize_underscore_camelize_witness :
    camelize (underscore (camelize (encode "get_user"))) =
      camelize (encode "get_user") :=
  camelize_underscore_camelize (encode "get_user") (by decide) (by decide)
    (by decide)

theorem slice_every_nil {α : Type} (n : Nat) (pad : Bool) (pi : α) :
    slice_every [] n pad pi = [] := by
  rw [slice_every]
  simp

theorem slice_every_zero {α : Type} (l : List α) (pad : Bool) (pi : α) :
    slice_every l 0 pad pi = [] := by
  rw [slice_every]
  simp

theorem slice_every_cons_eq {α : Type} (l : List α) (n : Nat) (pad : Bool)
    (pi : α) (hl : l ≠ []) (hn : n ≠ 0) :
    slice_every l n pad pi =
      (if pad ∧ n - (l.take n).length ≠ 0 then
         l.take n ++ List.replicate (n - (l.take n).length) pi
       else l.take n) :: slice_every (l.drop n) n pad pi := by
  rw [slice_every]
  have hne : ¬ ((l.take n).isEmpty = true) := by
    rw [List.isEmpty_iff, List.take_eq_nil_iff]
    tauto
  rw [dif_neg hne]

theorem slice_every_flatten {α : Type} :
    ∀ (l : List α) (n : Nat) (pad : Bool) (pi : α), pad = false → n ≠ 0 →
      (slice_every l n pad pi).flatten = l := by
  intro l n pad pi
  induction l, n, pad, pi using slice_every.induct with
  | case1 l n pad pi h =>
    intro _ hn
    rw [slice_every, dif_pos h]
    rw [List.isEmpty_iff, List.take_eq_nil_iff] at h
    rcases h with h | h
    · exact absurd h hn
    · simp [h]
  | case2 l n pad pi h ih =>
    intro hpad hn
    subst hpad
    have hl : l ≠ [] := by
      rintro rfl
      simp at h
    rw [slice_every_cons_eq l n false pi hl hn, if_neg (by simp)]
    simp only [List.flatten_cons]
    rw [ih rfl hn, List.take_append_drop]

theorem slice_every_len_le {α : Type} :
    ∀ (l : List α) (n : Nat) (pad : Bool) (pi : α), pad = false → n ≠ 0 →
      ∀ c ∈ slice_every l n pad pi, 1 ≤ c.length ∧ c.length ≤ n := by
  intro l n pad pi
  induction l, n, pad, pi using slice_every.induct with
  | case1 l n pad pi h =>
    intro _ _ c hc
    rw [slice_every, dif_pos h] at hc
    exact absurd hc (by simp)
  | case2 l n pad pi h ih =>
    intro hpad hn c hc
    subst hpad
    have hl : l ≠ [] := by
      rintro rfl
      simp at h
    rw [slice_every_cons_eq l n false pi hl hn, if_neg (by simp)] at hc
    rcases List.mem_cons.mp hc with rfl | hc
    · have h1 : l.length ≠ 0 := fun h0 => hl (List.length_eq_zero.mp h0)
      simp only [List.length_take]
      omega
    · exact ih rfl hn c hc

theorem slice_every_dropLast {α : Type} :
    ∀ (l : List α) (n : Nat) (pad : Bool) (pi : α), pad = false → n ≠ 0 →
      ∀ c ∈ (slice_every l n pad pi).dropLast, c.length = n := by
  intro l n pad pi
  induction l, n, pad, pi using slice_every.induct with
  | case1 l n pad pi h =>
    intro _ _ c hc
    rw [slice_every, dif_pos h] at hc
    exact absurd hc (by simp)
  | case2 l n pad pi h ih =>
    intro hpad hn c hc
    subst hpad
    have hl : l ≠ [] := by
      rintro rfl
      simp at h
    rw [slice_every_cons_eq l n false pi hl hn, if_neg (by simp)] at hc
    cases hr : slice_every (l.drop n) n false pi with
    | nil =>
      rw [hr] at hc
      exact absurd hc (by simp)
    | cons r rs =>
      rw [hr, List.dropLast_cons₂] at hc
      rcases List.mem_cons.mp hc with rfl | hc
      · have hd : l.drop n ≠ [] := by
          intro hd0
          rw [hd0, slice_every_nil] at hr
          exact absurd hr (by simp)
        have hlen : n < l.length := by
          by_contra hge
          exact hd (List.drop_eq_nil_of_le (by omega))
        simp only [List.length_take]
        omega
      · rw [← hr] at hc
        exact ih rfl hn c hc

theorem slice_every_pad_len {α : Type} :
    ∀ (l : List α) (n : Nat) (pad : Bool) (pi : α), pad = true → n ≠ 0 →
      ∀ c ∈ slice_every l n pad pi, c.length = n := by
  intro l n pad pi
  induction l, n, pad, pi using slice_every.induct with
  | case1 l n pad pi h =>
    intro _ _ c hc
    rw [slice_every, dif_pos h] at hc
    exact absurd hc (by simp)
  | case2 l n pad pi h ih =>
    intro hpad hn c hc
    subst hpad
    have hl : l ≠ [] := by
      rintro rfl
      simp at h
    rw [slice_every_cons_eq l n true pi hl hn] at hc
    rcases List.mem_cons.mp hc with rfl | hc
    · have htk : (l.take n).length ≤ n := by
        simp only [List.length_take]
        omega
      by_cases hfull : n - (l.take n).length ≠ 0
      · rw [if_pos ⟨rfl, hfull⟩]
        simp only [List.length_append, List.length_replicate]
        omega
      · rw [if_neg (by simpa using hfull)]
        omega
    · exact ih rfl hn c hc

theorem slice_every_full {α : Type} (l : List α) (pi : α) (hl : l ≠ []) :
    slice_every l l.length false pi = [l] := by
  have hn : l.length ≠ 0 := fun h0 => hl (List.length_eq_zero.mp h0)
  rw [slice_every_cons_eq l _ false pi hl hn, if_neg (by simp),
    List.take_length, List.drop_length, slice_every_nil]

/-- C4 counterexample: with chunk size 0 the utility yields no chunks at
all — not a single chunk containing everything, as the claim states. -/
theorem slice_every_zero_cex :
    slice_every ([0, 1, 2] : List Nat) 0 false 0 = [] ∧
      slice_every ([0, 1, 2] : List Nat) 0 false 0 ≠ [[0, 1, 2]] := by
  refine ⟨slice_every_zero _ _ _, ?_⟩
  rw [slice_every_zero]
  simp

/-- C4 (amended): for chunk size `n ≥ 1`, `slice_every` splits the input
into lists of length `n` whose concatenation is the input, with only the
last list possibly shorter (never empty) unless padding is on, in which
case every list has length exactly `n`; the spec's examples hold; but a
chunk size of 0 yields no chunks at all (the "unbounded" reading of a
non-positive size lives at the call site, not here). -/
theorem slice_every_spec :
    (∀ (α : Type) (l : List α) (pad : Bool) (pi : α),
        slice_every l 0 pad pi = []) ∧
    (∀ (α : Type) (l : List α) (n : Nat) (pi : α), 1 ≤ n →
        (slice_every l n false pi).flatten = l ∧
        (∀ c ∈ (slice_every l n false pi).dropLast, c.length = n) ∧
        (∀ c ∈ slice_every l n false pi, 1 ≤ c.length ∧ c.length ≤ n) ∧
        (∀ c ∈ slice_every l n true pi, c.length = n)) ∧
    slice_every [some 0, some 1, some 2, some 3, some 4, some 5, some 6] 3
        false none =
      [[some 0, some 1, some 2], [some 3, some 4, some 5], [some 6]] ∧
    slice_every [some 0, some 1, some 2, some 3, some 4, some 5, some 6] 3
        true none =
      [[some 0, some 1, some 2], [some 3, some 4, some 5],
        [some 6, none, none]] := by
  refine ⟨fun α l pad pi => slice_every_zero l pad pi, ?_, ?_, ?_⟩
  · intro α l n pi hn
    have hn0 : n ≠ 0 := by omega
    exact ⟨slice_every_flatten l n false pi rfl hn0,
      slice_every_dropLast l n false pi rfl hn0,
      slice_every_len_le l n false pi rfl hn0,
      slice_every_pad_len l n true pi rfl hn0⟩
  · simp [slice_every]
  · simp [slice_every]

/-- C4 witness: the amended chunk-shape facts evaluated at a concrete
input and chunk size 2. -/
theorem slice_every_spec_witness :
    (slice_every ([10, 20, 30] : List Nat) 2 false 0).flatten =
      [10, 20, 30] :=
  (slice_every_spec.2.1 Nat [10, 20, 30] 2 0 (by decide)).1

theorem lexLeB_total (a b : List Nat) :
    lexLeB a b = true ∨ lexLeB b a = true := by
  induction a generalizing b with
  | nil => exact Or.inl rfl
  | cons x xs ih =>
    cases b with
    | nil => exact Or.inr rfl
    | cons y ys =>
      rw [lexLeB, lexLeB]
      rcases lt_trichotomy x y with h | h | h
      · simp [h]
      · subst h
        simpa using ih ys
      · simp [h, lt_asymm h]

theorem lexLeB_trans {a b c : List Nat} (h1 : lexLeB a b = true)
    (h2 : lexLeB b c = true) : lexLeB a c = true := by
  induction a generalizing b c with
  | nil => rfl
  | cons x xs ih =>
    cases b with
    | nil => simp [lexLeB] at h1
    | cons y ys =>
      cases c with
      | nil => simp [lexLeB] at h2
      | cons z zs =>
        rw [lexLeB] at h1 h2 ⊢
        by_cases hxy : x < y
        · by_cases hyz : y < z
          · simp [lt_trans hxy hyz]
          · by_cases hzy : z < y
            · rw [if_neg hyz, if_pos hzy] at h2
              exact absurd h2 (by simp)
            · have : y = z := by omega
              subst this
              simp [hxy]
        · by_cases hyx : y < x
          · rw [if_neg hxy, if_pos hyx] at h1
            exact absurd h1 (by simp)
          · have : x = y := by omega
            subst this
            simp only [lt_irrefl, if_false] at h1
            by_cases hxz : x < z
            · simp [hxz]
            · by_cases hzx : z < x
              · rw [if_neg hxz, if_pos hzx] at h2
                exact absurd h2 (by simp)
              · rw [if_neg hxz, if_neg hzx] at h2 ⊢
                exact ih h1 h2

instance : IsTotal RpcMethod (fun a b => lexLeB a.name b.name = true) :=
  ⟨fun a b => lexLeB_total a.name b.name⟩

instance : IsTrans RpcMethod (fun a b => lexLeB a.name b.name = true) :=
  ⟨fun _ _ _ h1 h2 => lexLeB_trans h1 h2⟩

/-- C3: the emitted wrapper methods are ordered: for every stub (whatever
the declaration order of its RPCs), the emission order used by
`write_rpc_methods` is pairwise sorted by the lexicographic order on stub
attribute names, and is a permutation of the stub's non-dunder
attributes. -/
theorem rpc_methods_sorted (st : StubClass) :
    List.Pairwise (fun a b : RpcMethod => lexLeB a.name b.name = true)
      (sortedRpcMethods st) ∧
    (sortedRpcMethods st).Perm
      (st.methods.filter (fun m0 => !(encode "__").isPrefixOf m0.name)) := by
  constructor
  · exact List.sorted_insertionSort _ _
  · exact List.perm_insertionSort _ _

/-- C2: an enum or message declaration is emitted iff the descriptor's
fully-qualified name starts with the target package's name; with enums
`foo.Color` and `bar.Shade`, generating for package `foo` emits only
`Color`. -/
theorem enum_message_inclusion :
    (∀ (g : Gen) (m : PB2Module) (p : List Nat × EnumDesc),
        p ∈ includedEnums g m ↔
          p ∈ m.enumPool ∧ g.proto_package_name.isPrefixOf p.1 = true) ∧
    (∀ (g : Gen) (m : PB2Module) (p : List Nat × MsgDesc),
        p ∈ includedMsgs g m ↔
          p ∈ m.msgPool ∧ g.proto_package_name.isPrefixOf p.1 = true) ∧
    (includedEnums fooGen fooBarModule).map (fun p => p.2.name) =
      [encode "Color"] ∧
    write_enum_types fooGen fooBarModule = renderEnumClass colorEnum := by
  refine ⟨?_, ?_, ?_, ?_⟩
  · intro g m p
    unfold includedEnums
    exact List.mem_filter
  · intro g m p
    unfold includedMsgs
    exact List.mem_filter
  · decide
  · decide

/-- C9 counterexample: for the module short name `foo`, which does not
end in `_pb2`, package derivation does not fail: the constructor returns
normally and the derived package name is the empty string. -/
theorem derive_package_cex :
    (mkGenerator (encode "foo") none (encode "call_rpc") false
        0).proto_package_name = [] ∧
      (encode "_pb2").isSuffixOf (encode "foo") = false := by decide

/-- C9 (amended): package derivation never fails and never checks the
suffix — it unconditionally removes the last four characters of the
module short name (so a name that does end in `_pb2` round-trips:
appending `_pb2` to the derived package restores the name, while any
other name silently yields a mangled package). -/
theorem derive_package_spec (name : List Nat) :
    ((encode "_pb2").isSuffixOf name = true →
      derive_package name ++ encode "_pb2" = name) ∧
    (derive_package name).length = name.length - (encode "_pb2").length := by
  constructor
  · intro h
    rcases List.isSuffixOf_iff_suffix.mp h with ⟨t, ht⟩
    rw [← ht, derive_package]
    have hlen : (t ++ encode "_pb2").length - (encode "_pb2").length =
        t.length := by
      simp [List.length_append]
    rw [hlen, List.take_left]
  · rw [derive_package]
    simp only [List.length_take]
    omega

/-- C9 witness: a short name carrying the `_pb2` suffix round-trips. -/
theorem derive_package_spec_witness :
    derive_package (encode "foo_pb2") ++ encode "_pb2" = encode "foo_pb2" :=
  (derive_package_spec (encode "foo_pb2")).1 (by decide)

/-- C5: in folded mode every emitted wrapper is a method whose single
parameter besides `self` is the underscore-cased request type name,
whose body forwards that parameter to the dispatch method under the
RPC's literal name; for `GetUser` with request `GetUserRequest` it is
exactly `get_user(self, get_user_request)` dispatching on `'GetUser'`. -/
theorem folded_rpc_method_spec :
    (∀ core mn rn : List Nat,
        write_folded_rpc_method core mn rn =
          encode "\n    def " ++ underscore mn ++ encode "(self, " ++
            underscore rn ++ encode "):\n" ++
            (encode "        resp = self." ++ core ++ encode "('" ++ mn ++
              encode "', " ++ underscore rn ++
              encode ")\n        return resp\n")) ∧
    write_folded_rpc_method (encode "call_rpc") (encode "GetUser")
        (encode "GetUserRequest") =
      encode "\n    def get_user(self, get_user_request):\n        resp = self.call_rpc('GetUser', get_user_request)\n        return resp\n" := by
  have hsplit : encode "):\n        resp = self." =
      encode "):\n" ++ encode "        resp = self." := by decide
  constructor
  · intro core mn rn
    rw [write_folded_rpc_method, hsplit]
    simp [List.append_assoc]
  · decide

theorem intercalate_single {α : Type} (sep : List α) (x : List α) :
    List.intercalate sep [x] = x := by
  simp [List.intercalate]

/-- With a configured size of zero, the unfolded emitter puts the whole
parameter list on one line: helper equation for C6 and C10. -/
theorem write_unfolded_zero (core mn rn : List Nat)
    (params : List (List Nat)) :
    write_unfolded_rpc_method core 0 mn rn params =
      encode "\n    def " ++ underscore mn ++ encode "(" ++
        List.intercalate (encode ", ") (encode "self" :: params) ++
        encode "):\n        req = " ++ rn ++ encode "(\n" ++
        List.intercalate (encode ",\n")
          (params.map (fun p => encode "            " ++ p ++ encode "=" ++ p)) ++
        encode "\n        )\n        resp = self." ++ core ++
        encode "('" ++ mn ++ encode "', req)\n        return resp\n" := by
  rw [write_unfolded_rpc_method]
  have hfull : slice_every (encode "self" :: params)
      (encode "self" :: params).length false ([] : List Nat) =
      [encode "self" :: params] :=
    slice_every_full _ _ (by simp)
  have hif : (if (0 : Nat) = 0 then (encode "self" :: params).length else 0) =
      (encode "self" :: params).length := by simp
  rw [hif, hfull]
  simp only [List.map_cons, List.map_nil]
  rw [intercalate_single]
  have h1 : encode "\n" ++ (encode "    def " ++ underscore mn ++ encode "(") =
      encode "\n    def " ++ underscore mn ++ encode "(" := by
    have : encode "\n" ++ encode "    def " = encode "\n    def " := by decide
    rw [← this]
    simp [List.append_assoc]
  have h2 : encode "):\n" ++ encode "        req = " =
      encode "):\n        req = " := by decide
  rw [← h2]
  rw [← List.append_assoc, ← List.append_assoc, h1]
  simp [List.append_assoc]

/-- C6: in unfolded mode the emitted wrapper takes one parameter per
request field (each underscore-cased, in declared order), constructs the
request by keyword assignment of those parameters, and forwards it
through the dispatch method under the RPC's literal name; for fields
`[id, name]` it is exactly `get_user(self, id, name)` constructing
`GetUserRequest(id=id, name=name)`. -/
theorem unfolded_rpc_method_spec :
    (∀ (core mn rn : List Nat) (fields : List (List Nat)),
        write_unfolded_rpc_method core 0 mn rn (fields.map underscore) =
          encode "\n    def " ++ underscore mn ++ encode "(" ++
            List.intercalate (encode ", ")
              (encode "self" :: fields.map underscore) ++
            encode "):\n        req = " ++ rn ++ encode "(\n" ++
            List.intercalate (encode ",\n")
              ((fields.map underscore).map
                (fun p => encode "            " ++ p ++ encode "=" ++ p)) ++
            encode "\n        )\n        resp = self." ++ core ++
            encode "('" ++ mn ++ encode "', req)\n        return resp\n") ∧
    write_unfolded_rpc_method (encode "call_rpc") 0 (encode "GetUser")
        (encode "GetUserRequest")
        (([encode "id", encode "name"] : List (List Nat)).map underscore) =
      encode "\n    def get_user(self, id, name):\n        req = GetUserRequest(\n            id=id,\n            name=name\n        )\n        resp = self.call_rpc('GetUser', req)\n        return resp\n" := by
  refine ⟨fun core mn rn fields => write_unfolded_zero core mn rn _, ?_⟩
  rw [write_unfolded_zero]
  set_option maxRecDepth 8000 in decide

/-- C10: a configured argument-wrap size of 0 is replaced, at the
unfolded-emitter call site, by the full parameter count
`len(['self'] + req_param_names)`, so the whole parameter list is
emitted as a single `", "`-joined line; the chunking utility itself
treats 0 as "no chunks", not as "unbounded". -/
theorem unfolded_args_size_zero_spec :
    (∀ (core mn rn : List Nat) (params : List (List Nat)),
        write_unfolded_rpc_method core 0 mn rn params =
          write_unfolded_rpc_method core (encode "self" :: params).length
            mn rn params) ∧
    (∀ (core mn rn : List Nat) (params : List (List Nat)),
        write_unfolded_rpc_method core 0 mn rn params =
          encode "\n    def " ++ underscore mn ++ encode "(" ++
            List.intercalate (encode ", ") (encode "self" :: params) ++
            encode "):\n        req = " ++ rn ++ encode "(\n" ++
            List.intercalate (encode ",\n")
              (params.map
                (fun p => encode "            " ++ p ++ encode "=" ++ p)) ++
            encode "\n        )\n        resp = self." ++ core ++
            encode "('" ++ mn ++ encode "', req)\n        return resp\n") ∧
    (∀ (α : Type) (l : List α) (pad : Bool) (pi : α),
        slice_every l 0 pad pi = []) := by
  refine ⟨?_, fun core mn rn params => write_unfolded_zero core mn rn params,
    fun α l pad pi => slice_every_zero l pad pi⟩
  intro core mn rn params
  rw [write_unfolded_rpc_method, write_unfolded_rpc_method]
  simp

/-- C1 counterexample: a run over a module with no stub classes aborts
with the stub-lookup failure, yet the output already written at that
point is not empty — the claim's "no fragment emitted" is false. -/
theorem generate_missing_stub_cex :
    (generate (mkGenerator (encode "foo_pb2") none (encode "call_rpc")
        false 0) ⟨[], [], []⟩).2 = some GenError.missingStub ∧
    (generate (mkGenerator (encode "foo_pb2") none (encode "call_rpc")
        false 0) ⟨[], [], []⟩).1 ≠ [] := by decide

/-- C1 (amended): when the schema module lacks the stub class, the run
does abort fatally with the lookup failure, but only at the RPC-method
stage: the module header, enum and message declarations, class header,
constructor, stub property and core method have already been written, so
the output produced before the abort is nonempty. -/
theorem generate_missing_stub (g : Gen) (m : PB2Module)
    (h : lookupStub m g.stub_class_name = none) :
    (generate g m).2 = some GenError.missingStub ∧
    (generate g m).1 =
      write_module_header g m ++ write_enum_types g m ++
        write_message_types g m ++ write_class_header g ++
        write_class_constructor ++ write_stub_property g ++
        write_core_method g ∧
    (generate g m).1 ≠ [] := by
  have hgen : generate g m =
      (write_module_header g m ++ write_enum_types g m ++
        write_message_types g m ++ write_class_header g ++
        write_class_constructor ++ write_stub_property g ++
        write_core_method g, some GenError.missingStub) := by
    unfold generate
    rw [h]
  have hpos : 0 < (write_module_header g m).length := by
    rw [write_module_header]
    simp only [List.length_append]
    have h1 : 0 < (encode "# -*- coding: utf-8 -*-\n").length := by decide
    omega
  refine ⟨by rw [hgen], by rw [hgen], ?_⟩
  rw [hgen]
  apply List.ne_nil_of_length_pos
  simp only [List.length_append]
  omega

/-- C1 witness: the amended statement evaluated at a stub-less module. -/
theorem generate_missing_stub_witness :
    (generate (mkGenerator (encode "foo_pb2") none (encode "call_rpc")
        false 0) ⟨[], [], []⟩).1 ≠ [] :=
  (generate_missing_stub
    (mkGenerator (encode "foo_pb2") none (encode "call_rpc") false 0)
    ⟨[], [], []⟩ (by decide)).2.2


end GrpcPytools
